import Mathlib

/-!
Verification of the dev-utilities DOM helper library (src/index.js).

The library operates on the browser DOM; the embedding models the DOM
relations the code queries (child lists, shadow roots, slot assignment,
parent pointers, active elements) as inductive data, and each exported
function as a Lean function translated line by line from the source.
-/

set_option maxHeartbeats 1000000

/-- Model of a DOM node as seen by the downward traversal walkComposedTree:
the fields are exactly what the source reads from a node. nodeType is the
DOM numeric node type (1 = element, 3 = text, 11 = document fragment /
shadow root); isHTMLElement and isSlot model the instanceof checks;
shadowRoot is the attached shadow root, if any; assigned models what the
host call assignedNodes with flatten true returns for a slot; childNodes
is the plain child list. -/
inductive WNode : Type where
  | mk (nodeType : Nat) (isHTMLElement : Bool) (isSlot : Bool)
       (shadowRoot : Option WNode) (assigned : List WNode) (childNodes : List WNode)

def WNode.nodeType : WNode → Nat
  | .mk t _ _ _ _ _ => t

def WNode.isHTMLElement : WNode → Bool
  | .mk _ h _ _ _ _ => h

def WNode.isSlot : WNode → Bool
  | .mk _ _ s _ _ _ => s

def WNode.shadowRoot : WNode → Option WNode
  | .mk _ _ _ sh _ _ => sh

def WNode.assigned : WNode → List WNode
  | .mk _ _ _ _ a _ => a

def WNode.childNodes : WNode → List WNode
  | .mk _ _ _ _ _ c => c

/-- The DOM children collection (element children only, nodeType 1), as read
by node.shadowRoot.children in the source. -/
def WNode.children (n : WNode) : List WNode :=
  n.childNodes.filter (fun c => c.nodeType == 1)

/-- The composed-child computation of walkComposedTree (source lines 169-174):
a host with an attached shadow root contributes the shadow root's element
children; a slot contributes its flattened assigned nodes; any other node
contributes its childNodes. -/
def composedChildren (node : WNode) : List WNode :=
  match node.isHTMLElement, node.shadowRoot with
  | true, some sr => sr.children
  | _, _ => if node.isSlot then node.assigned else node.childNodes

theorem sizeOf_lt_of_mem_childNodes {m n : WNode} (h : m ∈ n.childNodes) :
    sizeOf m < sizeOf n := by
  cases n with
  | mk t ih is sh a c =>
    have h1 : sizeOf m < sizeOf c := List.sizeOf_lt_of_mem h
    simp only [WNode.mk.sizeOf_spec]
    omega

theorem sizeOf_lt_of_mem_assigned {m n : WNode} (h : m ∈ n.assigned) :
    sizeOf m < sizeOf n := by
  cases n with
  | mk t ih is sh a c =>
    have h1 : sizeOf m < sizeOf a := List.sizeOf_lt_of_mem h
    simp only [WNode.mk.sizeOf_spec]
    omega

theorem sizeOf_lt_of_shadowRoot {s n : WNode} (h : n.shadowRoot = some s) :
    sizeOf s < sizeOf n := by
  cases n with
  | mk t ih is sh a c =>
    simp only [WNode.shadowRoot] at h
    subst h
    simp only [WNode.mk.sizeOf_spec, Option.some.sizeOf_spec]
    omega

theorem sizeOf_filter_le (p : WNode → Bool) (l : List WNode) :
    sizeOf (l.filter p) ≤ sizeOf l := by
  induction l with
  | nil => simp
  | cons x xs ih =>
    by_cases hx : p x = true
    · simp only [List.filter_cons, hx, if_pos, List.cons.sizeOf_spec]
      omega
    · simp only [List.filter_cons, hx]
      simp only [Bool.false_eq_true, if_false, List.cons.sizeOf_spec]
      omega

theorem sizeOf_composedChildren_lt (n : WNode) :
    sizeOf (composedChildren n) < sizeOf n := by
  unfold composedChildren
  cases n with
  | mk t ih is sh a c =>
    rcases ih with _ | _ <;> rcases sh with _ | sr <;>
      simp only [WNode.isHTMLElement, WNode.shadowRoot, WNode.isSlot, WNode.assigned,
        WNode.childNodes, WNode.mk.sizeOf_spec, Option.some.sizeOf_spec] <;>
      try (split <;> omega)
    have h1 : sizeOf (WNode.children sr) ≤ sizeOf sr.childNodes := sizeOf_filter_le _ _
    have h2 : sizeOf sr.childNodes < sizeOf sr := by
      cases sr with
      | mk t2 ih2 is2 sh2 a2 c2 =>
        simp only [WNode.childNodes, WNode.mk.sizeOf_spec]
        omega
    omega

theorem sizeOf_lt_of_mem_composedChildren {m n : WNode} (h : m ∈ composedChildren n) :
    sizeOf m < sizeOf n := by
  unfold composedChildren at h
  rcases hh : n.isHTMLElement with _ | _ <;>
  rcases hs : n.shadowRoot with _ | sr <;>
    simp only [hh, hs] at h
  · split at h
    · exact sizeOf_lt_of_mem_assigned h
    · exact sizeOf_lt_of_mem_childNodes h
  · split at h
    · exact sizeOf_lt_of_mem_assigned h
    · exact sizeOf_lt_of_mem_childNodes h
  · split at h
    · exact sizeOf_lt_of_mem_assigned h
    · exact sizeOf_lt_of_mem_childNodes h
  · have h1 : m ∈ sr.childNodes := List.mem_of_mem_filter h
    have h2 : sizeOf m < sizeOf sr := sizeOf_lt_of_mem_childNodes h1
    have h3 : sizeOf sr < sizeOf n := sizeOf_lt_of_shadowRoot hs
    omega

mutual
/-- Translation of walkComposedTree (source lines 155-179): visit the root;
stop the branch when the active node-type filter rejects it or skipNode
prunes it; emit it when filter keeps it; then recurse over the composed
children in order. The generator is modelled by the list of nodes it
yields. -/
def walkComposedTree (node : WNode) (whatToShow : Nat)
    (filter : WNode → Bool) (skipNode : WNode → Bool) : List WNode :=
  if (whatToShow != 0 && node.nodeType != whatToShow) || skipNode node then
    []
  else
    (if filter node then [node] else []) ++
      walkForest (composedChildren node) whatToShow filter skipNode
  termination_by (sizeOf node, 0)
  decreasing_by
    exact Prod.Lex.left _ _ (sizeOf_composedChildren_lt node)

/-- The for-loop of walkComposedTree over a list of children, in order. -/
def walkForest (l : List WNode) (whatToShow : Nat)
    (filter : WNode → Bool) (skipNode : WNode → Bool) : List WNode :=
  match l with
  | [] => []
  | c :: rest =>
      walkComposedTree c whatToShow filter skipNode ++
        walkForest rest whatToShow filter skipNode
  termination_by (sizeOf l, 1)
end

theorem sizeOf_childNodes_lt (n : WNode) : sizeOf n.childNodes < sizeOf n := by
  cases n with
  | mk t ih is sh a c =>
    simp only [WNode.childNodes, WNode.mk.sizeOf_spec]
    omega

mutual
/-- Comparison definition for the refinement claim: a plain depth-first
pre-order traversal of the tree along childNodes, ignoring shadow roots and
slot assignment. -/
def plainPreorder (n : WNode) : List WNode :=
  n :: plainForest n.childNodes
  termination_by (sizeOf n, 0)
  decreasing_by
    exact Prod.Lex.left _ _ (sizeOf_childNodes_lt n)

/-- Pre-order traversal of a list of sibling subtrees, in order. -/
def plainForest (l : List WNode) : List WNode :=
  match l with
  | [] => []
  | c :: rest => plainPreorder c ++ plainForest rest
  termination_by (sizeOf l, 1)
end

mutual
/-- A tree with no shadow subtrees and no slots: shadowRoot is absent and
isSlot is false at every node reachable through childNodes. -/
def noShadowNoSlot (n : WNode) : Bool :=
  match n with
  | .mk _ _ isSlot sh _ c => sh.isNone && !isSlot && noShadowNoSlotList c
  termination_by (sizeOf n, 0)

def noShadowNoSlotList (l : List WNode) : Bool :=
  match l with
  | [] => true
  | x :: xs => noShadowNoSlot x && noShadowNoSlotList xs
  termination_by (sizeOf l, 1)
end

theorem walkForest_eq_flatMap (l : List WNode) (wts : Nat) (f skip : WNode → Bool) :
    walkForest l wts f skip = l.flatMap (fun c => walkComposedTree c wts f skip) := by
  induction l with
  | nil => simp [walkForest]
  | cons c rest ih => simp [walkForest, ih]

theorem plainForest_eq_flatMap (l : List WNode) :
    plainForest l = l.flatMap plainPreorder := by
  induction l with
  | nil => simp [plainForest]
  | cons c rest ih => simp [plainForest, ih]

/-- The keep filter factors out of the traversal: walking with a keep
predicate equals walking with the always-true keep predicate and then
filtering the emitted list. -/
theorem walkComposedTree_filter_factor :
    ∀ (node : WNode) (wts : Nat) (f skip : WNode → Bool),
      walkComposedTree node wts f skip =
        (walkComposedTree node wts (fun _ => true) skip).filter f := by
  refine walkComposedTree.induct
    (fun node wts f skip =>
      walkComposedTree node wts f skip =
        (walkComposedTree node wts (fun _ => true) skip).filter f)
    (fun l wts f skip =>
      walkForest l wts f skip =
        (walkForest l wts (fun _ => true) skip).filter f)
    ?_ ?_ ?_ ?_
  · intro node wts f skip h
    rw [walkComposedTree.eq_def, walkComposedTree.eq_def, if_pos h, if_pos h]
    rfl
  · intro node wts f skip h ih
    rw [walkComposedTree.eq_def, walkComposedTree.eq_def, if_neg h, if_neg h]
    rw [ih, List.filter_append]
    cases hf : f node <;> simp [hf]
  · intro wts f skip
    simp [walkForest]
  · intro wts f skip c rest ih1 ih2
    simp only [walkForest, ih1, ih2, List.filter_append]

mutual
/-- Well-formedness for the shadow-root claim: document-fragment nodes
(nodeType 11, the type of a shadow root) occur only as the shadowRoot of a
host, never inside a childNodes or assigned-nodes list. -/
def wfShadow (n : WNode) : Bool :=
  match n with
  | .mk _ _ _ sh a c =>
      (match sh with
       | some s => wfShadow s
       | none => true) &&
      wfShadowList a && wfShadowList c
  termination_by (sizeOf n, 0)

def wfShadowList (l : List WNode) : Bool :=
  match l with
  | [] => true
  | x :: xs => (x.nodeType != 11 && wfShadow x) && wfShadowList xs
  termination_by (sizeOf l, 1)
end

theorem noShadowNoSlot_destruct {n : WNode} (h : noShadowNoSlot n = true) :
    n.shadowRoot = none ∧ n.isSlot = false ∧ noShadowNoSlotList n.childNodes = true := by
  cases n with
  | mk t ih is sh a c =>
    rw [noShadowNoSlot] at h
    simp only [Bool.and_eq_true, Bool.not_eq_eq_eq_not, Bool.not_true, Option.isNone_iff_eq_none]
      at h
    exact ⟨h.1.1, h.1.2, h.2⟩

theorem noShadowNoSlotList_destruct {c : WNode} {rest : List WNode}
    (h : noShadowNoSlotList (c :: rest) = true) :
    noShadowNoSlot c = true ∧ noShadowNoSlotList rest = true := by
  rw [noShadowNoSlotList] at h
  simpa using h

theorem composedChildren_plain {n : WNode} (h1 : n.shadowRoot = none) (h2 : n.isSlot = false) :
    composedChildren n = n.childNodes := by
  unfold composedChildren
  rw [h1, h2]
  cases n.isHTMLElement <;> simp

theorem composedChildren_host {n sr : WNode} (h1 : n.isHTMLElement = true)
    (h2 : n.shadowRoot = some sr) :
    composedChildren n = sr.children := by
  unfold composedChildren
  rw [h1, h2]

/-- C3: the keep filter (third argument) returning false on a node only
suppresses emission of that node itself: the walk equals the walk with the
always-true keep filter, filtered afterwards, so matching descendants of a
rejected node are still produced. A true skipNode (prune) result, or a
mismatch against an active node-type filter, stops that branch entirely:
nothing is emitted and no descent happens. -/
theorem walkComposedTree_keep_only_filters_prune_stops_branch :
    (∀ (node : WNode) (wts : Nat) (f skip : WNode → Bool),
        walkComposedTree node wts f skip =
          (walkComposedTree node wts (fun _ => true) skip).filter f) ∧
    (∀ (node : WNode) (wts : Nat) (f skip : WNode → Bool),
        skip node = true ∨ (wts ≠ 0 ∧ node.nodeType ≠ wts) →
        walkComposedTree node wts f skip = []) := by
  constructor
  · exact walkComposedTree_filter_factor
  · intro node wts f skip h
    rw [walkComposedTree.eq_def, if_pos]
    rcases h with h | ⟨h1, h2⟩
    · simp [h]
    · simp [bne_iff_ne, h1, h2]

/-- Witness for C3: pruning a concrete single node emits nothing. -/
theorem walkComposedTree_keep_prune_witness :
    walkComposedTree (WNode.mk 1 true false none [] []) 0
      (fun _ => true) (fun _ => true) = [] :=
  walkComposedTree_keep_only_filters_prune_stops_branch.2
    (WNode.mk 1 true false none [] []) 0 (fun _ => true) (fun _ => true) (Or.inl rfl)

theorem wfShadowList_mem {l : List WNode} {x : WNode}
    (h : wfShadowList l = true) (hx : x ∈ l) :
    x.nodeType ≠ 11 ∧ wfShadow x = true := by
  induction l with
  | nil => cases hx
  | cons c rest ih =>
    rw [wfShadowList.eq_def] at h
    simp only [Bool.and_eq_true, bne_iff_ne, ne_eq] at h
    rcases List.mem_cons.mp hx with h1 | h1
    · subst h1
      exact ⟨h.1.1, h.1.2⟩
    · exact ih h.2 h1

theorem wfShadow_destruct {n : WNode} (h : wfShadow n = true) :
    (∀ s, n.shadowRoot = some s → wfShadow s = true) ∧
    wfShadowList n.assigned = true ∧ wfShadowList n.childNodes = true := by
  cases n with
  | mk t ih is sh a c =>
    rw [wfShadow.eq_def] at h
    simp only [Bool.and_eq_true] at h
    refine ⟨?_, h.1.2, h.2⟩
    intro s hs
    simp only [WNode.shadowRoot] at hs
    subst hs
    exact h.1.1

theorem wfShadow_composedChildren {n c : WNode} (h : wfShadow n = true)
    (hc : c ∈ composedChildren n) :
    c.nodeType ≠ 11 ∧ wfShadow c = true := by
  obtain ⟨hsh, hass, hch⟩ := wfShadow_destruct h
  unfold composedChildren at hc
  rcases hh : n.isHTMLElement with _ | _ <;>
  rcases hs : n.shadowRoot with _ | sr <;>
    simp only [hh, hs] at hc
  · split at hc
    · exact wfShadowList_mem hass hc
    · exact wfShadowList_mem hch hc
  · split at hc
    · exact wfShadowList_mem hass hc
    · exact wfShadowList_mem hch hc
  · split at hc
    · exact wfShadowList_mem hass hc
    · exact wfShadowList_mem hch hc
  · have hwsr : wfShadow sr = true := hsh sr hs
    obtain ⟨-, -, hsrch⟩ := wfShadow_destruct hwsr
    have h1 : c ∈ sr.childNodes := List.mem_of_mem_filter hc
    exact wfShadowList_mem hsrch h1

theorem mem_walkComposedTree_cases {m n : WNode} {wts : Nat} {f skip : WNode → Bool}
    (h : m ∈ walkComposedTree n wts f skip) :
    m = n ∨ ∃ c ∈ composedChildren n, m ∈ walkComposedTree c wts f skip := by
  rw [walkComposedTree.eq_def] at h
  split at h
  · cases h
  · rw [walkForest_eq_flatMap] at h
    rcases List.mem_append.mp h with h1 | h1
    · left
      split at h1 <;> simp_all
    · right
      exact List.mem_flatMap.mp h1

theorem walk_no_fragment_aux : ∀ (k : Nat) (n : WNode), sizeOf n ≤ k →
    wfShadow n = true → n.nodeType ≠ 11 →
    ∀ (wts : Nat) (f skip : WNode → Bool) (m : WNode),
      m ∈ walkComposedTree n wts f skip → m.nodeType ≠ 11 := by
  intro k
  induction k using Nat.strong_induction_on with
  | _ k ih =>
    intro n hk hwf hn wts f skip m hm
    rcases mem_walkComposedTree_cases hm with h1 | ⟨c, hc, hmc⟩
    · subst h1
      exact hn
    · have hlt : sizeOf c < sizeOf n := sizeOf_lt_of_mem_composedChildren hc
    
      obtain ⟨hc11, hcwf⟩ := wfShadow_composedChildren hwf hc
      exact ih (sizeOf c) (by omega) c (le_refl _) hcwf hc11 wts f skip m hmc

/-- C4: in a well-formed tree (shadow roots, nodeType 11, occur only as the
shadowRoot field of a host) rooted at a non-fragment node, walkComposedTree
never emits a shadow root node, and descending into a host with an attached
shadow root proceeds directly over the shadow root's element children. -/
theorem walkComposedTree_never_emits_shadow_root :
    ∀ (n : WNode) (wts : Nat) (f skip : WNode → Bool),
      wfShadow n = true → n.nodeType ≠ 11 →
      (∀ m ∈ walkComposedTree n wts f skip, m.nodeType ≠ 11) ∧
      (∀ sr, n.isHTMLElement = true → n.shadowRoot = some sr →
        ((wts != 0 && n.nodeType != wts) || skip n) = false →
        walkComposedTree n wts f skip =
          (if f n then [n] else []) ++
            sr.children.flatMap (fun c => walkComposedTree c wts f skip)) := by
  intro n wts f skip hwf hn
  constructor
  · intro m hm
    exact walk_no_fragment_aux (sizeOf n) n (le_refl _) hwf hn wts f skip m hm
  · intro sr h1 h2 h3
    rw [walkComposedTree.eq_def, if_neg (by simp [h3]), composedChildren_host h1 h2,
      walkForest_eq_flatMap]

/-- Witness for C4 at a concrete host: a host with one shadow child and one
light child; every emitted node has a non-fragment node type and the walk
descends through the shadow root's element children. -/
theorem walkComposedTree_never_emits_shadow_root_witness :
    (∀ m ∈ walkComposedTree
        (WNode.mk 1 true false (some (WNode.mk 11 false false none []
          [WNode.mk 1 true false none [] []])) [] [WNode.mk 3 false false none [] []])
        0 (fun _ => true) (fun _ => false), m.nodeType ≠ 11) ∧
    walkComposedTree
        (WNode.mk 1 true false (some (WNode.mk 11 false false none []
          [WNode.mk 1 true false none [] []])) [] [WNode.mk 3 false false none [] []])
        0 (fun _ => true) (fun _ => false) =
      (if (fun (_ : WNode) => true) (WNode.mk 1 true false (some (WNode.mk 11 false false none []
          [WNode.mk 1 true false none [] []])) [] [WNode.mk 3 false false none [] []])
       then [WNode.mk 1 true false (some (WNode.mk 11 false false none []
          [WNode.mk 1 true false none [] []])) [] [WNode.mk 3 false false none [] []]]
       else []) ++
        (WNode.mk 11 false false none [] [WNode.mk 1 true false none [] []]).children.flatMap
          (fun c => walkComposedTree c 0 (fun _ => true) (fun _ => false)) := by
  have h := walkComposedTree_never_emits_shadow_root
    (WNode.mk 1 true false (some (WNode.mk 11 false false none []
      [WNode.mk 1 true false none [] []])) [] [WNode.mk 3 false false none [] []])
    0 (fun _ => true) (fun _ => false)
    (by simp [wfShadow, wfShadowList, WNode.nodeType])
    (by simp [WNode.nodeType])
  exact ⟨h.1, h.2 (WNode.mk 11 false false none [] [WNode.mk 1 true false none [] []])
    rfl rfl rfl⟩

/-- C5: on a tree with no shadow subtrees and no slots, walkComposedTree with
the default arguments (node-type filter 0 meaning no filtering, keep always
true, skipNode always false) produces exactly the plain depth-first pre-order
traversal of the tree. -/
theorem walkComposedTree_plain_tree_is_preorder :
    ∀ (n : WNode), noShadowNoSlot n = true →
      walkComposedTree n 0 (fun _ => true) (fun _ => false) = plainPreorder n := by
  have main : ∀ (node : WNode) (wts : Nat) (f skip : WNode → Bool),
      wts = 0 → (∀ x, f x = true) → (∀ x, skip x = false) →
      noShadowNoSlot node = true →
      walkComposedTree node wts f skip = plainPreorder node := by
    refine walkComposedTree.induct
      (fun node wts f skip =>
        wts = 0 → (∀ x, f x = true) → (∀ x, skip x = false) →
        noShadowNoSlot node = true →
        walkComposedTree node wts f skip = plainPreorder node)
      (fun l wts f skip =>
        wts = 0 → (∀ x, f x = true) → (∀ x, skip x = false) →
        noShadowNoSlotList l = true →
        walkForest l wts f skip = plainForest l)
      ?_ ?_ ?_ ?_
    · intro node wts f skip h hw hf hs hn
      subst hw
      rw [hs node] at h
      simp at h
    · intro node wts f skip h ih hw hf hs hn
      obtain ⟨h1, h2, h3⟩ := noShadowNoSlot_destruct hn
      have hc : composedChildren node = node.childNodes := composedChildren_plain h1 h2
      rw [hc] at ih
      rw [walkComposedTree.eq_def, if_neg h, hf node, hc, ih hw hf hs h3,
        plainPreorder.eq_def]
      simp
    · intro wts f skip hw hf hs hn
      rw [walkForest, plainForest]
    · intro wts f skip c rest ih1 ih2 hw hf hs hn
      obtain ⟨h1, h2⟩ := noShadowNoSlotList_destruct hn
      rw [walkForest, plainForest, ih1 hw hf hs h1, ih2 hw hf hs h2]
  intro n hn
  exact main n 0 (fun _ => true) (fun _ => false) rfl (fun x => rfl) (fun x => rfl) hn

/-- Witness for C5: a concrete three-node tree with no shadow roots and no
slots, where the walk coincides with the plain pre-order traversal. -/
theorem walkComposedTree_plain_tree_is_preorder_witness :
    walkComposedTree
        (WNode.mk 1 true false none []
          [WNode.mk 3 false false none [] [], WNode.mk 1 true false none [] []])
        0 (fun _ => true) (fun _ => false) =
      plainPreorder
        (WNode.mk 1 true false none []
          [WNode.mk 3 false false none [] [], WNode.mk 1 true false none [] []]) :=
  walkComposedTree_plain_tree_is_preorder
    (WNode.mk 1 true false none []
      [WNode.mk 3 false false none [] [], WNode.mk 1 true false none [] []])
    (by simp [noShadowNoSlot, noShadowNoSlotList])

/-- Model of a DOM node as seen by the upward walks composedAncestors and
deepContains: isHTMLElement and isShadowRoot model the instanceof checks;
assignedSlot, parentNode and host are the three upward links the source
reads. An inductive term is finite, matching a well-formed DOM tree whose
ancestor chains are finite and acyclic. -/
inductive UpNode : Type where
  | mk (isHTMLElement : Bool) (isShadowRoot : Bool)
       (assignedSlot : Option UpNode) (parentNode : Option UpNode) (host : Option UpNode)

def UpNode.isHTMLElement : UpNode → Bool
  | .mk h _ _ _ _ => h

def UpNode.isShadowRoot : UpNode → Bool
  | .mk _ s _ _ _ => s

def UpNode.assignedSlot : UpNode → Option UpNode
  | .mk _ _ a _ _ => a

def UpNode.parentNode : UpNode → Option UpNode
  | .mk _ _ _ p _ => p

def UpNode.host : UpNode → Option UpNode
  | .mk _ _ _ _ h => h

/-- The composed-parent computation of composedAncestors (source lines
236-241): an HTMLElement assigned to a slot has that slot as its composed
parent; a shadow root has its host; any other node has its parentNode. -/
def composedParent (n : UpNode) : Option UpNode :=
  if n.isHTMLElement && n.assignedSlot.isSome then n.assignedSlot
  else if n.isShadowRoot then n.host
  else n.parentNode

theorem sizeOf_lt_of_assignedSlot {s n : UpNode} (h : n.assignedSlot = some s) :
    sizeOf s < sizeOf n := by
  cases n with
  | mk ih is a p hh =>
    simp only [UpNode.assignedSlot] at h
    subst h
    simp only [UpNode.mk.sizeOf_spec, Option.some.sizeOf_spec]
    omega

theorem sizeOf_lt_of_parentNode {s n : UpNode} (h : n.parentNode = some s) :
    sizeOf s < sizeOf n := by
  cases n with
  | mk ih is a p hh =>
    simp only [UpNode.parentNode] at h
    subst h
    simp only [UpNode.mk.sizeOf_spec, Option.some.sizeOf_spec]
    omega

theorem sizeOf_lt_of_host {s n : UpNode} (h : n.host = some s) :
    sizeOf s < sizeOf n := by
  cases n with
  | mk ih is a p hh =>
    simp only [UpNode.host] at h
    subst h
    simp only [UpNode.mk.sizeOf_spec, Option.some.sizeOf_spec]
    omega

theorem sizeOf_lt_of_composedParent {p n : UpNode} (h : composedParent n = some p) :
    sizeOf p < sizeOf n := by
  unfold composedParent at h
  split at h
  · exact sizeOf_lt_of_assignedSlot h
  · split at h
    · exact sizeOf_lt_of_host h
    · exact sizeOf_lt_of_parentNode h

/-- Translation of composedAncestors (source lines 234-247): repeatedly
compute the composed parent of the current node; while one exists, yield it
and continue from it. The generator is modelled by the list of yielded
nodes. -/
def composedAncestors (n : UpNode) : List UpNode :=
  match h : composedParent n with
  | some next => next :: composedAncestors next
  | none => []
  termination_by sizeOf n
  decreasing_by
    exact sizeOf_lt_of_composedParent h

/-- The parent step of deepContains (source line 213): the JavaScript
expression current.assignedSlot or else current.parentNode or else
current.host, with the first non-null link winning. -/
def dcParent (n : UpNode) : Option UpNode :=
  match n.assignedSlot with
  | some s => some s
  | none =>
      match n.parentNode with
      | some p => some p
      | none => n.host

theorem sizeOf_lt_of_dcParent {p n : UpNode} (h : dcParent n = some p) :
    sizeOf p < sizeOf n := by
  unfold dcParent at h
  split at h
  · cases h
    exact sizeOf_lt_of_assignedSlot (by assumption)
  · split at h
    · cases h
      exact sizeOf_lt_of_parentNode (by assumption)
    · exact sizeOf_lt_of_host h

mutual
/-- Structural equality on upward nodes, modelling JavaScript reference
identity of nodes in a well-formed finite tree. -/
def UpNode.beq (a b : UpNode) : Bool :=
  match a, b with
  | .mk h1 s1 a1 p1 o1, .mk h2 s2 a2 p2 o2 =>
      h1 == h2 && s1 == s2 && optBeq a1 a2 && optBeq p1 p2 && optBeq o1 o2
  termination_by (sizeOf a, 0)

def optBeq (a b : Option UpNode) : Bool :=
  match a, b with
  | none, none => true
  | some x, some y => UpNode.beq x y
  | _, _ => false
  termination_by (sizeOf a, 1)
end

theorem UpNode.beq_iff : ∀ a b : UpNode, UpNode.beq a b = true ↔ a = b := by
  have main : ∀ a b : UpNode, (UpNode.beq a b = true ↔ a = b) := by
    refine UpNode.beq.induct
      (fun a b => UpNode.beq a b = true ↔ a = b)
      (fun a b => optBeq a b = true ↔ a = b)
      ?_ ?_ ?_ ?_
    · intro h1 s1 a1 p1 o1 h2 s2 a2 p2 o2 ih1 ih2 ih3
      rw [UpNode.beq]
      simp only [Bool.and_eq_true, beq_iff_eq, UpNode.mk.injEq]
      rw [ih1, ih2, ih3]
      tauto
    · show optBeq none none = true ↔ (none : Option UpNode) = none
      rw [optBeq.eq_def]
      simp
    · intro x y ih
      rw [optBeq.eq_def]
      simp only [Option.some.injEq]
      exact ih
    · intro a b h1 h2
      rw [optBeq.eq_def]
      cases a <;> cases b <;> simp_all
  exact main

instance : BEq UpNode := ⟨UpNode.beq⟩

instance : LawfulBEq UpNode where
  eq_of_beq h := (UpNode.beq_iff _ _).mp h
  rfl := (UpNode.beq_iff _ _).mpr rfl

instance : DecidableEq UpNode := fun a b =>
  decidable_of_iff (UpNode.beq a b = true) (UpNode.beq_iff a b)

/-- Translation of deepContains (source lines 209-220): walk upward from the
target through assignedSlot or parentNode or host; return true as soon as the
walked-to parent is the container, false when the chain runs out. Node
identity is modelled by structural equality, which coincides with reference
identity on well-formed finite trees. -/
def deepContains (container : UpNode) (target : UpNode) : Bool :=
  match h : dcParent target with
  | some parent => parent == container || deepContains container parent
  | none => false
  termination_by sizeOf target
  decreasing_by
    exact sizeOf_lt_of_dcParent h

mutual
/-- Upward links of the restricted node class on which the two upward walks
agree: every node carrying an assignedSlot is a non-shadow-root HTMLElement.
The real DOM is wider: Text nodes and SVG elements are also slottable, and
on such slotted non-HTMLElements deepContains and composedAncestors diverge
(see the counterexample below). The other two conjuncts do match the DOM: a
shadow root has no parentNode and no assignedSlot, and only a shadow root
has a host. -/
def wfUp (n : UpNode) : Bool :=
  match n with
  | .mk ih is aSlot pNode host =>
      (!aSlot.isSome || (ih && !is)) &&
      (!is || (!pNode.isSome && !aSlot.isSome)) &&
      (is || !host.isSome) &&
      wfUpOpt aSlot && wfUpOpt pNode && wfUpOpt host
  termination_by (sizeOf n, 0)

def wfUpOpt (o : Option UpNode) : Bool :=
  match o with
  | some x => wfUp x
  | none => true
  termination_by (sizeOf o, 1)
end

theorem wfUpOpt_some {p : UpNode} (h : wfUpOpt (some p) = true) : wfUp p = true := by
  rw [wfUpOpt.eq_def] at h
  exact h

theorem wfUp_destruct {ihm is : Bool} {aSlot pNode host : Option UpNode}
    (h : wfUp (.mk ihm is aSlot pNode host) = true) :
    (aSlot.isSome = true → ihm = true ∧ is = false) ∧
    (is = true → pNode = none ∧ aSlot = none) ∧
    (is = false → host = none) ∧
    wfUpOpt aSlot = true ∧ wfUpOpt pNode = true ∧ wfUpOpt host = true := by
  rw [wfUp] at h
  simp only [Bool.and_eq_true] at h
  obtain ⟨⟨⟨⟨⟨h1, h2⟩, h3⟩, h4⟩, h5⟩, h6⟩ := h
  refine ⟨?_, ?_, ?_, h4, h5, h6⟩
  · intro hs
    cases aSlot with
    | none => simp at hs
    | some s => simp_all
  · intro hs
    subst hs
    cases pNode <;> cases aSlot <;> simp_all
  · intro hs
    subst hs
    cases host <;> simp_all

theorem dcParent_eq_composedParent {n : UpNode} (h : wfUp n = true) :
    dcParent n = composedParent n := by
  cases n with
  | mk ihm is aSlot pNode host =>
    obtain ⟨hd1, hd2, hd3, -, -, -⟩ := wfUp_destruct h
    unfold dcParent composedParent
    simp only [UpNode.assignedSlot, UpNode.parentNode, UpNode.host,
      UpNode.isHTMLElement, UpNode.isShadowRoot]
    cases aSlot with
    | some s =>
      obtain ⟨he, hs⟩ := hd1 (by simp)
      subst he
      subst hs
      simp
    | none =>
      simp only [Option.isSome_none, Bool.and_false, Bool.false_eq_true, if_false]
      cases is with
      | true =>
        obtain ⟨hp, -⟩ := hd2 rfl
        subst hp
        simp
      | false =>
        have hh : host = none := hd3 rfl
        subst hh
        cases pNode <;> simp
    
theorem wfUp_composedParent {n p : UpNode} (h : wfUp n = true)
    (hp : composedParent n = some p) : wfUp p = true := by
  cases n with
  | mk ihm is aSlot pNode host =>
    obtain ⟨-, -, -, h4, h5, h6⟩ := wfUp_destruct h
    unfold composedParent at hp
    simp only [UpNode.assignedSlot, UpNode.parentNode, UpNode.host,
      UpNode.isHTMLElement, UpNode.isShadowRoot] at hp
    split at hp
    · rw [hp] at h4
      exact wfUpOpt_some h4
    · split at hp
      · rw [hp] at h6
        exact wfUpOpt_some h6
      · rw [hp] at h5
        exact wfUpOpt_some h5

theorem deepContains_sizeOf_false : ∀ (k : Nat) (container target : UpNode),
    sizeOf target ≤ k → sizeOf target ≤ sizeOf container →
    deepContains container target = false := by
  intro k
  induction k using Nat.strong_induction_on with
  | _ k ih =>
    intro container target hk hge
    rw [deepContains.eq_def]
    cases hp : dcParent target with
    | none => rfl
    | some p =>
      have hlt : sizeOf p < sizeOf target := sizeOf_lt_of_dcParent hp
      have hne : (p == container) = false := by
        rw [beq_eq_false_iff_ne]
        intro heq
        rw [heq] at hlt
        omega
      have hrec : deepContains container p = false :=
        ih (sizeOf p) (by omega) container p (le_refl _) (by omega)
      simp [hne, hrec]

theorem deepContains_iff_aux : ∀ (k : Nat) (container target : UpNode),
    sizeOf target ≤ k → wfUp target = true →
    (deepContains container target = true ↔ container ∈ composedAncestors target) := by
  intro k
  induction k using Nat.strong_induction_on with
  | _ k ih =>
    intro container target hk hwf
    have hpar : dcParent target = composedParent target := dcParent_eq_composedParent hwf
    rw [deepContains.eq_def, composedAncestors.eq_def, hpar]
    cases hp : composedParent target with
    | none => simp
    | some p =>
      have hlt : sizeOf p < sizeOf target := sizeOf_lt_of_composedParent hp
      have hwfp : wfUp p = true := wfUp_composedParent hwf hp
      have ihp := ih (sizeOf p) (by omega) container p (le_refl _) hwfp
      simp only [Bool.or_eq_true, beq_iff_eq, List.mem_cons, ihp]
      constructor
      · rintro (h | h)
        · exact Or.inl h.symm
        · exact Or.inr h
      · rintro (h | h)
        · exact Or.inl h.symm
        · exact Or.inr h

/-- C2 amended: deepContains is never reflexive (no node deep-contains
itself), and on nodes whose upward chain assigns slots only to
non-shadow-root HTMLElements, deepContains container target is true exactly
when container occurs in the composed-ancestor chain of target. The
unrestricted claim is false of the code: for a slotted node that is not an
HTMLElement, deepContains follows the assignedSlot link while
composedAncestors skips it, as the counterexample shows. -/
theorem deepContains_iff_mem_composedAncestors :
    (∀ container target : UpNode, wfUp target = true →
      (deepContains container target = true ↔ container ∈ composedAncestors target)) ∧
    (∀ n : UpNode, deepContains n n = false) := by
  constructor
  · intro container target hwf
    exact deepContains_iff_aux (sizeOf target) container target (le_refl _) hwf
  · intro n
    exact deepContains_sizeOf_false (sizeOf n) n n (le_refl _) (le_refl _)

/-- Witness for C2 at a concrete two-node chain: a child whose parentNode is
a root is deep-contained in the root, the root is in its composed-ancestor
chain, and neither node deep-contains itself. -/
theorem deepContains_iff_mem_composedAncestors_witness :
    (deepContains (UpNode.mk false false none none none)
        (UpNode.mk true false none (some (UpNode.mk false false none none none)) none) = true ↔
      UpNode.mk false false none none none ∈
        composedAncestors
          (UpNode.mk true false none (some (UpNode.mk false false none none none)) none)) ∧
    deepContains (UpNode.mk false false none none none)
      (UpNode.mk false false none none none) = false := by
  refine ⟨deepContains_iff_mem_composedAncestors.1
    (UpNode.mk false false none none none)
    (UpNode.mk true false none (some (UpNode.mk false false none none none)) none)
    ?_, deepContains_iff_mem_composedAncestors.2 (UpNode.mk false false none none none)⟩
  simp [wfUp, wfUpOpt]

/-- C2 counterexample: a slotted Text node, which the DOM allows even though
it is not an HTMLElement. Its assignedSlot is the slot element and its
parentNode is the shadow host. deepContains follows the assignedSlot link
and finds the slot, but composedAncestors guards the slot step with the
instanceof HTMLElement check, walks to the parent chain instead and never
yields the slot, so the claimed equivalence is false as stated. -/
theorem deepContains_slotted_text_not_in_composedAncestors :
    deepContains (UpNode.mk true false none none none)
        (UpNode.mk false false (some (UpNode.mk true false none none none))
          (some (UpNode.mk true false none (some (UpNode.mk false false none none none)) none))
          none) = true ∧
    UpNode.mk true false none none none ∉
      composedAncestors
        (UpNode.mk false false (some (UpNode.mk true false none none none))
          (some (UpNode.mk true false none (some (UpNode.mk false false none none none)) none))
          none) := by
  constructor
  · rw [deepContains.eq_def]
    simp [dcParent, UpNode.assignedSlot]
  · simp [composedAncestors.eq_def, composedParent, UpNode.isHTMLElement, UpNode.isShadowRoot,
      UpNode.assignedSlot, UpNode.parentNode, UpNode.mk.injEq]

theorem composedAncestors_eq_nil_iff {n : UpNode} :
    composedAncestors n = [] ↔ composedParent n = none := by
  rw [composedAncestors.eq_def]
  cases hp : composedParent n <;> simp

theorem mem_composedAncestors_sizeOf : ∀ (k : Nat) (n m : UpNode),
    sizeOf n ≤ k → m ∈ composedAncestors n → sizeOf m < sizeOf n := by
  intro k
  induction k using Nat.strong_induction_on with
  | _ k ih =>
    intro n m hk hm
    rw [composedAncestors.eq_def] at hm
    split at hm
    · rename_i p hp
      rcases List.mem_cons.mp hm with h1 | h1
      · subst h1
        exact sizeOf_lt_of_composedParent hp
      · have hps : sizeOf p < sizeOf n := sizeOf_lt_of_composedParent hp
        have := ih (sizeOf p) (by omega) p m (le_refl _) h1
        omega
    · cases hm

theorem composedAncestors_length : ∀ (k : Nat) (n : UpNode),
    sizeOf n ≤ k → (composedAncestors n).length < sizeOf n := by
  intro k
  induction k using Nat.strong_induction_on with
  | _ k ih =>
    intro n hk
    rw [composedAncestors.eq_def]
    split
    · rename_i p hp
      have hps : sizeOf p < sizeOf n := sizeOf_lt_of_composedParent hp
      have := ih (sizeOf p) (by omega) p (le_refl _)
      simp only [List.length_cons]
      omega
    · have : 0 < sizeOf n := by
        cases n with
        | mk a b c d e =>
          simp only [UpNode.mk.sizeOf_spec]
          omega
      simpa

theorem composedAncestors_getLast : ∀ (k : Nat) (n : UpNode),
    sizeOf n ≤ k →
    ∀ l, (composedAncestors n).getLast? = some l → composedParent l = none := by
  intro k
  induction k using Nat.strong_induction_on with
  | _ k ih =>
    intro n hk l hl
    rw [composedAncestors.eq_def] at hl
    split at hl
    · rename_i p hp
      have hps : sizeOf p < sizeOf n := sizeOf_lt_of_composedParent hp
      cases hrec : composedAncestors p with
      | nil =>
        rw [hrec] at hl
        simp only [List.getLast?_singleton, Option.some.injEq] at hl
        subst hl
        exact composedAncestors_eq_nil_iff.mp hrec
      | cons x xs =>
        rw [hrec] at hl
        rw [List.getLast?_cons_cons] at hl
        rw [← hrec] at hl
        exact ih (sizeOf p) (by omega) p (le_refl _) l hl
    · cases hl

/-- C6: the composed-ancestor walk terminates: the yielded sequence is
finite (its length is bounded by the size of the starting node), the
starting node itself is never among the yielded nodes, and the walk stops
at a node with no composed parent. -/
theorem composedAncestors_finite_excludes_start :
    ∀ n : UpNode,
      n ∉ composedAncestors n ∧
      (composedAncestors n).length < sizeOf n ∧
      (∀ l, (composedAncestors n).getLast? = some l → composedParent l = none) := by
  intro n
  refine ⟨?_, composedAncestors_length (sizeOf n) n (le_refl _),
    composedAncestors_getLast (sizeOf n) n (le_refl _)⟩
  intro hmem
  have := mem_composedAncestors_sizeOf (sizeOf n) n n (le_refl _) hmem
  omega

/-- Witness for C6 at a concrete two-node chain: the walk from the child
yields exactly the root, which has no composed parent; the child is not
among its own ancestors. -/
theorem composedAncestors_finite_excludes_start_witness :
    UpNode.mk true false none (some (UpNode.mk false false none none none)) none ∉
      composedAncestors
        (UpNode.mk true false none (some (UpNode.mk false false none none none)) none) ∧
    composedParent (UpNode.mk false false none none none) = none := by
  refine ⟨(composedAncestors_finite_excludes_start
    (UpNode.mk true false none (some (UpNode.mk false false none none none)) none)).1,
    (composedAncestors_finite_excludes_start
      (UpNode.mk true false none (some (UpNode.mk false false none none none)) none)).2.2
      (UpNode.mk false false none none none) ?_⟩
  simp [composedAncestors.eq_def, composedParent, UpNode.assignedSlot,
    UpNode.parentNode, UpNode.host, UpNode.isHTMLElement, UpNode.isShadowRoot]

/-- Model of a node as seen by getDeepActiveElement: a Document or ShadowRoot
exposes an activeElement (possibly null), and an element may host an attached
shadow root. One inductive type carries both fields, matching the two roles
the recursion alternates between. -/
inductive DNode : Type where
  | mk (activeElement : Option DNode) (shadowRoot : Option DNode)

def DNode.activeElement : DNode → Option DNode
  | .mk a _ => a

def DNode.shadowRoot : DNode → Option DNode
  | .mk _ s => s

theorem sizeOf_lt_of_dnode_activeElement {a n : DNode} (h : n.activeElement = some a) :
    sizeOf a < sizeOf n := by
  cases n with
  | mk x y =>
    simp only [DNode.activeElement] at h
    subst h
    simp only [DNode.mk.sizeOf_spec, Option.some.sizeOf_spec]
    omega

theorem sizeOf_lt_of_dnode_shadowRoot {s n : DNode} (h : n.shadowRoot = some s) :
    sizeOf s < sizeOf n := by
  cases n with
  | mk x y =>
    simp only [DNode.shadowRoot] at h
    subst h
    simp only [DNode.mk.sizeOf_spec, Option.some.sizeOf_spec]
    omega

/-- Translation of getDeepActiveElement (source lines 186-195). The root
argument is nullable (the source reads it with optional chaining); the result
is an Option to model a JavaScript function that could in principle return
null or undefined. body stands for document.body, read in the base case. -/
def getDeepActiveElement (body : DNode) (root : Option DNode) : Option DNode :=
  match root with
  | none => some body
  | some r =>
      match ha : r.activeElement with
      | some activeEl =>
          match hs : activeEl.shadowRoot with
          | some sr =>
              match getDeepActiveElement body (some sr) with
              | some deeper => some deeper
              | none => some activeEl
          | none => some activeEl
      | none => some body
  termination_by sizeOf root
  decreasing_by
    have h1 : sizeOf activeEl < sizeOf r := sizeOf_lt_of_dnode_activeElement ha
    have h2 : sizeOf sr < sizeOf activeEl := sizeOf_lt_of_dnode_shadowRoot hs
    simp only [Option.some.sizeOf_spec]
    omega

/-- Comparison definition for the dead-code claim: getDeepActiveElement with
the null-coalescing fallback to the current level's active element removed,
returning the recursive result directly. -/
def getDeepActiveElementNoFallback (body : DNode) (root : Option DNode) : Option DNode :=
  match root with
  | none => some body
  | some r =>
      match ha : r.activeElement with
      | some activeEl =>
          match hs : activeEl.shadowRoot with
          | some sr => getDeepActiveElementNoFallback body (some sr)
          | none => some activeEl
      | none => some body
  termination_by sizeOf root
  decreasing_by
    have h1 : sizeOf activeEl < sizeOf r := sizeOf_lt_of_dnode_activeElement ha
    have h2 : sizeOf sr < sizeOf activeEl := sizeOf_lt_of_dnode_shadowRoot hs
    simp only [Option.some.sizeOf_spec]
    omega

/-- C10: getDeepActiveElement always returns a node (never null or
undefined), because the base cases return document.body; consequently the
null-coalescing fallback to the current level's active element is dead code:
the function coincides with the variant that returns the recursive result
directly. -/
theorem getDeepActiveElement_never_null_fallback_dead :
    ∀ (body : DNode) (root : Option DNode),
      (getDeepActiveElement body root).isSome = true ∧
      getDeepActiveElement body root = getDeepActiveElementNoFallback body root := by
  have hsome : ∀ (body : DNode) (root : Option DNode),
      (getDeepActiveElement body root).isSome = true := by
    intro body root
    rw [getDeepActiveElement.eq_def]
    split
    · simp
    · split
      · split
        · split <;> simp
        · simp
      · simp
  have heq : ∀ (k : Nat) (body : DNode) (root : Option DNode), sizeOf root ≤ k →
      getDeepActiveElement body root = getDeepActiveElementNoFallback body root := by
    intro k
    induction k using Nat.strong_induction_on with
    | _ k ih =>
      intro body root hk
      rw [getDeepActiveElement.eq_def, getDeepActiveElementNoFallback.eq_def]
      split
      · rfl
      · rename_i rt r
        split
        · rename_i activeEl ha
          split
          · rename_i sr hs
            have hszr : sizeOf (some sr : Option DNode) < sizeOf (some r : Option DNode) := by
              have h1 : sizeOf activeEl < sizeOf r := sizeOf_lt_of_dnode_activeElement ha
              have h2 : sizeOf sr < sizeOf activeEl := sizeOf_lt_of_dnode_shadowRoot hs
              simp only [Option.some.sizeOf_spec]
              omega
            have hk2 : sizeOf (some r : Option DNode) ≤ k := hk
            have hrec : getDeepActiveElement body (some sr) =
                getDeepActiveElementNoFallback body (some sr) :=
              ih (sizeOf (some sr : Option DNode)) (by omega) body (some sr) (le_refl _)
            obtain ⟨d, hd⟩ := Option.isSome_iff_exists.mp (hsome body (some sr))
            rw [hd, ← hrec, hd]
          · rfl
        · rfl
  intro body root
  exact ⟨hsome body root, heq (sizeOf root) body root (le_refl _)⟩

/-- C1 (code bug): when the active element hosts an attached shadow subtree
whose own chain has no active element, the function returns document.body,
not the active element found at the current level: the null-coalescing
fallback meant to return it is dead code, since the recursive call's base
case already returns document.body. Here body is the node mk none none, the
current level's active element is the host mk none (some (mk none none)),
and the result is body rather than the host. -/
theorem getDeepActiveElement_inactive_shadow_returns_body_not_host :
    getDeepActiveElement (DNode.mk none none)
        (some (DNode.mk (some (DNode.mk none (some (DNode.mk none none)))) none)) =
      some (DNode.mk none none) ∧
    (DNode.mk none none : DNode) ≠ DNode.mk none (some (DNode.mk none none)) := by
  constructor
  · rw [getDeepActiveElement.eq_def]
    simp only [DNode.activeElement, DNode.shadowRoot]
    rw [getDeepActiveElement.eq_def]
    simp only [DNode.activeElement]
  · intro h
    cases h

/-- Model of a DOM event as read and mutated by redispatchEventFromEvent:
the event type, the flags consulted when constructing the copy, and the two
effect flags set by stopPropagation and preventDefault. -/
structure JSEvent where
  typ : String
  bubbles : Bool
  cancelable : Bool
  composed : Bool
  defaultPrevented : Bool
  propagationStopped : Bool
deriving DecidableEq

/-- The options argument: per-field overrides merged over the original
event's fields when constructing the copy. -/
structure EventInitOverride where
  bubbles : Option Bool
  cancelable : Option Bool
  composed : Option Bool
deriving DecidableEq

/-- The conditional stopPropagation step (source lines 28-30): a bubbling
event has its propagation stopped when the element has no shadow root or the
event is composed. -/
def stopPropagationStep (elementHasShadowRoot : Bool) (ev : JSEvent) : JSEvent :=
  if ev.bubbles && (!elementHasShadowRoot || ev.composed) then
    ⟨ev.typ, ev.bubbles, ev.cancelable, ev.composed, ev.defaultPrevented, true⟩
  else ev

/-- The copy construction (source line 32): a fresh event of the original
type whose init fields are the original's overridden by options, with fresh
effect flags. -/
def eventCopy (ev : JSEvent) (options : EventInitOverride) : JSEvent :=
  ⟨ev.typ, options.bubbles.getD ev.bubbles, options.cancelable.getD ev.cancelable,
    options.composed.getD ev.composed, false, false⟩

/-- Translation of redispatchEventFromEvent (source lines 26-39). The host
environment's element.dispatchEvent is a parameter returning whether the
dispatch was not cancelled; the result pairs the return value with the final
state of the original event. -/
def redispatchEventFromEvent (dispatchEvent : JSEvent → Bool)
    (elementHasShadowRoot : Bool) (ev : JSEvent) (options : EventInitOverride) :
    Bool × JSEvent :=
  let ev1 := stopPropagationStep elementHasShadowRoot ev
  let copy := eventCopy ev1 options
  let dispatched := dispatchEvent copy
  let ev2 :=
    if !dispatched then
      ⟨ev1.typ, ev1.bubbles, ev1.cancelable, ev1.composed, true, ev1.propagationStopped⟩
    else ev1
  (dispatched, ev2)

/-- C8: when the dispatched copy of a cancelable event is cancelled by a
listener (element.dispatchEvent returns false), redispatchEventFromEvent
invokes preventDefault on the original event and returns false. -/
theorem redispatch_cancelled_prevents_default_returns_false :
    ∀ (dispatchEvent : JSEvent → Bool) (hasShadow : Bool) (ev : JSEvent)
      (options : EventInitOverride),
      ev.cancelable = true →
      dispatchEvent (eventCopy (stopPropagationStep hasShadow ev) options) = false →
      (redispatchEventFromEvent dispatchEvent hasShadow ev options).1 = false ∧
      (redispatchEventFromEvent dispatchEvent hasShadow ev options).2.defaultPrevented
        = true := by
  intro dispatchEvent hasShadow ev options hc hd
  unfold redispatchEventFromEvent
  simp [hd]

/-- Witness for C8: a concrete cancelable change event whose copy is
cancelled by the listener; the original ends with defaultPrevented and the
call returns false. -/
theorem redispatch_cancelled_witness :
    (redispatchEventFromEvent (fun _ => false) false
      ⟨"change", true, true, false, false, false⟩ ⟨none, none, none⟩).1 = false ∧
    (redispatchEventFromEvent (fun _ => false) false
      ⟨"change", true, true, false, false, false⟩ ⟨none, none, none⟩).2.defaultPrevented
      = true :=
  redispatch_cancelled_prevents_default_returns_false (fun _ => false) false
    ⟨"change", true, true, false, false, false⟩ ⟨none, none, none⟩ rfl rfl

/-- Model of the rectangle read by isClickInsideRect, with rational
coordinates standing for JavaScript numbers. -/
structure DOMRect where
  top : ℚ
  left : ℚ
  height : ℚ
  width : ℚ

/-- Model of the pointer event coordinates read by isClickInsideRect. -/
structure PointerEvent where
  clientX : ℚ
  clientY : ℚ

/-- Translation of isClickInsideRect (source lines 256-260): the four
inclusive comparisons, in source order. -/
def isClickInsideRect (rect : DOMRect) (ev : PointerEvent) : Bool :=
  decide (ev.clientY ≥ rect.top) && decide (ev.clientY ≤ rect.top + rect.height) &&
    decide (ev.clientX ≥ rect.left) && decide (ev.clientX ≤ rect.left + rect.width)

/-- C9: isClickInsideRect tests all four edges inclusively, and on the rect
with top 0, left 0, height 10, width 10 the point (5,5) is inside, (11,5) is
outside, and the boundary point (10,10) counts as inside. -/
theorem isClickInsideRect_inclusive_bounds :
    (∀ (t l h w x y : ℚ),
      isClickInsideRect ⟨t, l, h, w⟩ ⟨x, y⟩ = true ↔
        (t ≤ y ∧ y ≤ t + h ∧ l ≤ x ∧ x ≤ l + w)) ∧
    isClickInsideRect ⟨0, 0, 10, 10⟩ ⟨5, 5⟩ = true ∧
    isClickInsideRect ⟨0, 0, 10, 10⟩ ⟨11, 5⟩ = false ∧
    isClickInsideRect ⟨0, 0, 10, 10⟩ ⟨10, 10⟩ = true := by
  refine ⟨?_, by norm_num [isClickInsideRect], by norm_num [isClickInsideRect],
    by norm_num [isClickInsideRect]⟩
  intro t l h w x y
  simp [isClickInsideRect, ge_iff_le]
  tauto

/-- Model of String.prototype.substring(start, end) from ECMAScript, on the
character list of the receiver: both indices are clamped into [0, length]
and then swapped if start exceeds end, and the characters in between are
returned. -/
def jsSubstring (s : List Char) (start endArg : Int) : List Char :=
  let len : Int := s.length
  let intStart := min (max start 0) len
  let intEnd := min (max endArg 0) len
  let lo := min intStart intEnd
  let hi := max intStart intEnd
  (s.drop lo.toNat).take (hi - lo).toNat

/-- Translation of randomID (source line 268): the base-36 representation of
Math.random() — a parameter here, since the host produces it — cut with
substring(2, length). -/
def randomID (randomStr : List Char) (length : Int) : List Char :=
  jsSubstring randomStr 2 length

/-- A base-36 digit as produced by Number.prototype.toString(36): a lowercase
letter or a decimal digit. -/
def isBase36 (c : Char) : Bool :=
  (decide ('a' ≤ c) && decide (c ≤ 'z')) || (decide ('0' ≤ c) && decide (c ≤ '9'))

/-- What Math.random().toString(36) can produce: the single character 0 when
the random number is zero, otherwise a string of the shape 0.ddd... whose
digits are base-36. -/
def randomRepr (s : List Char) : Prop :=
  s = ['0'] ∨ ∃ ds, s = '0' :: '.' :: ds ∧ ∀ c ∈ ds, isBase36 c = true

theorem jsSubstring_eq (s : List Char) (a b : Int) :
    jsSubstring s a b =
      (s.drop
          (min (min (max a 0) ((s.length : Nat) : Int)) (min (max b 0) ((s.length : Nat) : Int))).toNat).take
        ((max (min (max a 0) ((s.length : Nat) : Int)) (min (max b 0) ((s.length : Nat) : Int)) -
          min (min (max a 0) ((s.length : Nat) : Int)) (min (max b 0) ((s.length : Nat) : Int))).toNat) :=
  rfl

theorem take_min_length {α : Type} (l : List α) (n : Nat) :
    l.take (min n l.length) = l.take n := by
  rcases le_or_lt n l.length with h | h
  · rw [min_eq_left h]
  · rw [min_eq_right h.le, List.take_length, List.take_of_length_le h.le]

theorem jsSubstring_two_ten (ds : List Char) :
    jsSubstring ('0' :: '.' :: ds) 2 10 = ds.take 8 := by
  rw [jsSubstring_eq]
  generalize hL : ((('0' :: '.' :: ds).length : Nat) : Int) = L
  have hL2 : L = (ds.length : Int) + 2 := by
    rw [← hL]
    simp only [List.length_cons]
    push_cast
    ring
  have h1 : (min (min (max (2 : Int) 0) L) (min (max (10 : Int) 0) L)).toNat = 2 := by
    omega
  have h2 : ((max (min (max (2 : Int) 0) L) (min (max (10 : Int) 0) L)) -
      (min (min (max (2 : Int) 0) L) (min (max (10 : Int) 0) L))).toNat
      = min 8 ds.length := by
    omega
  rw [h1, h2, List.drop_succ_cons, List.drop_succ_cons, List.drop_zero, take_min_length]

theorem jsSubstring_two_nonpos (s : List Char) (len : Int) (h : len ≤ 0) :
    jsSubstring s 2 len = s.take 2 := by
  rw [jsSubstring_eq]
  generalize hL : ((s.length : Nat) : Int) = L
  have hL0 : 0 ≤ L ∧ L = (s.length : Int) := by
    constructor
    · rw [← hL]
      positivity
    · rw [← hL]
  have h1 : (min (min (max (2 : Int) 0) L) (min (max len 0) L)).toNat = 0 := by
    omega
  have h2 : ((max (min (max (2 : Int) 0) L) (min (max len 0) L)) -
      (min (min (max (2 : Int) 0) L) (min (max len 0) L))).toNat = min 2 s.length := by
    omega
  rw [h1, h2, List.drop_zero, take_min_length]

/-- C7 counterexample: for length 0 (a 0-or-negative length argument) the
function does not return the empty string: substring swaps its clamped
arguments, so randomID returns the first two characters 0. of the random
representation. -/
theorem randomID_zero_not_empty :
    randomID ['0', '.', '8'] 0 = ['0', '.'] ∧ randomID ['0', '.', '8'] 0 ≠ [] := by
  decide

/-- C7 amended: randomID(10) returns at most 10 characters (in fact at most
8), all base-36, but for a length argument that is 0 or negative the result
is the first two characters of the random representation (normally the
two-character string 0.), not the empty string. -/
theorem randomID_bounds_and_nonpos_behavior :
    ∀ s : List Char, randomRepr s →
      ((randomID s 10).length ≤ 10 ∧ ∀ c ∈ randomID s 10, isBase36 c = true) ∧
      (∀ len : Int, len ≤ 0 → randomID s len = s.take 2) := by
  intro s hs
  rcases hs with h0 | ⟨ds, hds, hb⟩
  · subst h0
    refine ⟨⟨by decide, ?_⟩, ?_⟩
    · intro c hc
      have he : randomID ['0'] 10 = [] := by decide
      rw [he] at hc
      cases hc
    · intro len hlen
      exact jsSubstring_two_nonpos ['0'] len hlen
  · subst hds
    refine ⟨⟨?_, ?_⟩, ?_⟩
    · show (jsSubstring ('0' :: '.' :: ds) 2 10).length ≤ 10
      rw [jsSubstring_two_ten]
      simp only [List.length_take]
      omega
    · intro c hc
      show isBase36 c = true
      rw [randomID, jsSubstring_two_ten] at hc
      exact hb c (List.take_subset _ _ hc)
    · intro len hlen
      exact jsSubstring_two_nonpos _ len hlen

/-- Witness for C7 amended at the concrete representation 0.8: the ten-cut
is short and base-36, and the zero-cut is the two characters 0. rather than
the empty string. -/
theorem randomID_bounds_witness :
    ((randomID ['0', '.', '8'] 10).length ≤ 10 ∧
      ∀ c ∈ randomID ['0', '.', '8'] 10, isBase36 c = true) ∧
    randomID ['0', '.', '8'] 0 = (['0', '.', '8'] : List Char).take 2 := by
  have h := randomID_bounds_and_nonpos_behavior ['0', '.', '8']
    (Or.inr ⟨['8'], rfl, by decide⟩)
  exact ⟨h.1, h.2 0 (by decide)⟩
